import Mathlib

/-!
Verification development for the pydablooms binding of dablooms, a scaling,
counting, disk-persisted Bloom filter.

The repository source under scrutiny is `src/pydablooms/pydablooms.c`, the
Python binding layer.  The dablooms engine itself (`dablooms.c`) is not part
of the sources, so the engine is modelled from the specification
(hash engine, counting sub-filters, scaling controller, durability tracker);
the binding-layer functions (`Dablooms_init`, `load_dabloom`, `check`,
`contains`, `flush`, ...) are translated directly from `pydablooms.c`.

Representation note: the specification keeps the ordered sequence of
sub-filters oldest first, with the active sub-filter last.  The embedding
stores the same sequence newest first (the active sub-filter is the head),
which makes the newest-first scan of `delete` a plain head-first recursion.
-/

/-- Modelled from the spec: saturating counter maximum for the 4-bit counters
of a counting sub-filter ("saturating counters, width ≤ 4–8 bits", §3). -/
def COUNTER_MAX : Int := 15

/-- Modelled from the spec: counters per element capacity
("array of `capacity * load_factor_inverse` saturating counters", §3). -/
def SLOTS_PER_ELEM : Nat := 10

/-- Modelled from the spec: number of hash positions k of the initial
sub-filter, a representative value of the standard Bloom sizing (§4.3). -/
def INIT_HASHES : Nat := 5

/-- Modelled from the spec: first base hash value h1 of a key (a byte
sequence), a deterministic fold over the bytes ("two independent base hash
values h1, h2 of the key", §4.1; the engine's concrete hash functions are not
in the sources, any deterministic function is a faithful model). -/
def hash1 (key : List Nat) : Nat :=
  key.foldl (fun a b => a * 31 + b) 5381

/-- Modelled from the spec: second base hash value h2 of a key. -/
def hash2 (key : List Nat) : Nat :=
  key.foldl (fun a b => a * 37 + b) 77

/-- Modelled from the spec: one counting sub-filter (§3 "SubFilter"):
`capacity` is the element count it was sized for, `size` the number of
counters (`capacity * load_factor_inverse`), `num_hashes` is k, `counters`
the counter array (total function on slot indices), `count` the number of add
operations applied (numerator of the fill ratio, §4.2), `sealed` true once
the sub-filter is retired from receiving new inserts. -/
structure bloom_t where
  capacity : Nat
  size : Nat
  num_hashes : Nat
  counters : Nat → Int
  count : Nat
  sealed : Bool

/-- Modelled from the spec: the ordered slot positions of a key in a
sub-filter, by double hashing: the i-th position is
`(h1 + i*h2) mod capacity` for i in `[0, k)` (§4.1). -/
def bloom_positions (b : bloom_t) (key : List Nat) : List Nat :=
  (List.range b.num_hashes).map (fun i => (hash1 key + i * hash2 key) % b.size)

/-- Modelled from the spec: saturating increment of one counter — increments,
saturating at the counter's maximum representable value instead of
wrapping (§4.2). -/
def counter_inc (c : Int) : Int :=
  if c < COUNTER_MAX then c + 1 else c

/-- Modelled from the spec: guarded decrement of one counter — decrements a
position that is currently > 0, does not decrement a position already
at 0 (§4.2). -/
def counter_dec (c : Int) : Int :=
  if 0 < c then c - 1 else c

/-- Pointwise update of the counter array at one slot. -/
def counters_update (cs : Nat → Int) (p : Nat) (f : Int → Int) : Nat → Int :=
  fun j => if j = p then f (cs j) else cs j

/-- Apply a per-counter operation at each position of a list, in order
(one application per occurrence). -/
def counters_apply (cs : Nat → Int) (L : List Nat) (f : Int → Int) : Nat → Int :=
  L.foldl (fun cs p => counters_update cs p f) cs

/-- Modelled from the spec: sub-filter `add(key)` — increments the counter at
each of the k positions, saturating, and counts the add for the fill
ratio (§4.2). -/
def bloom_add (b : bloom_t) (key : List Nat) : bloom_t :=
  { b with
    counters := counters_apply b.counters (bloom_positions b key) counter_inc,
    count := b.count + 1 }

/-- Modelled from the spec: sub-filter `check(key)` — true iff all k
positions have counter > 0 (§4.2). -/
def bloom_check (b : bloom_t) (key : List Nat) : Bool :=
  (bloom_positions b key).all (fun p => decide (0 < b.counters p))

/-- Modelled from the spec: sub-filter `remove(key)` — decrements each of the
k positions that is currently > 0 (§4.2). -/
def bloom_remove (b : bloom_t) (key : List Nat) : bloom_t :=
  { b with
    counters := counters_apply b.counters (bloom_positions b key) counter_dec }

/-- Modelled from the spec: fill-ratio threshold check deciding sealing —
the active sub-filter is sealed when its fill ratio
(adds applied / capacity) exceeds the fixed threshold 0.8 (§4.3). -/
def bloom_is_full (b : bloom_t) : Bool :=
  decide (b.capacity * 4 < b.count * 5)

/-- Modelled from the spec: a fresh, zeroed sub-filter of the given element
capacity and hash count. -/
def new_bloom (cap k : Nat) : bloom_t :=
  { capacity := cap, size := cap * SLOTS_PER_ELEM, num_hashes := k,
    counters := fun _ => 0, count := 0, sealed := false }

/-- Modelled from the spec: the successor sub-filter appended when the active
one fills up, sized larger with a tighter error budget so the aggregate
false-positive rate stays bounded — capacity grows geometrically and k
increases as the budget tightens (§4.3). -/
def next_bloom (b : bloom_t) : bloom_t :=
  new_bloom (b.capacity * 2) (b.num_hashes + 1)

/-- Modelled from the spec: the scaling filter state (§3 "ScalingFilter").
`blooms` holds the sub-filters newest first (head = active). -/
structure scaling_bloom_t where
  capacity : Nat
  error_rate : ℚ
  blooms : List bloom_t
  mem_seqnum : Nat
  disk_seqnum : Nat

/-- Modelled from the spec: a freshly created scaling filter — one initial
zeroed sub-filter, both sequence numbers 0 (§3, §4.4). -/
def new_scaling_bloom (cap : Nat) (r : ℚ) : scaling_bloom_t :=
  { capacity := cap, error_rate := r, blooms := [new_bloom cap INIT_HASHES],
    mem_seqnum := 0, disk_seqnum := 0 }

/-- Modelled from the spec: `add` of the scaling controller — targets the
active (newest) sub-filter; if, after the add, that sub-filter's fill ratio
exceeds the threshold, it is sealed and a fresh, larger sub-filter is
appended as active; every successful add bumps `mem_seqnum` (§4.3, §4.4).
Returns the new state and the integer status (0 = inserted; the operation
never errors, §4.3). -/
def scaling_bloom_add (s : scaling_bloom_t) (key : List Nat) (_id : Nat) :
    scaling_bloom_t × Int :=
  match s.blooms with
  | [] => (s, 0)
  | b :: rest =>
    let b' := bloom_add b key
    let blooms' :=
      if bloom_is_full b' then
        next_bloom b' :: { b' with sealed := true } :: rest
      else
        b' :: rest
    ({ s with blooms := blooms', mem_seqnum := s.mem_seqnum + 1 }, 0)

/-- Modelled from the spec: `check` of the scaling controller — true iff any
sub-filter, sealed or active, reports true (logical OR across the
sequence, §4.3). -/
def scaling_bloom_check (s : scaling_bloom_t) (key : List Nat) : Bool :=
  s.blooms.any (fun b => bloom_check b key)

/-- Modelled from the spec: the newest-first removal scan of `delete` —
decrement only in the first sub-filter, scanning newest first, where `check`
currently reports the key present (§4.3). -/
def remove_first : List bloom_t → List Nat → List bloom_t
  | [], _ => []
  | b :: rest, key =>
    if bloom_check b key then bloom_remove b key :: rest
    else b :: remove_first rest key

/-- Modelled from the spec: `delete` of the scaling controller — applies the
newest-first removal scan and bumps `mem_seqnum` (§4.3, §4.4).  Returns the
new state and the integer status. -/
def scaling_bloom_remove (s : scaling_bloom_t) (key : List Nat) (_id : Nat) :
    scaling_bloom_t × Int :=
  ({ s with blooms := remove_first s.blooms key,
            mem_seqnum := s.mem_seqnum + 1 }, 0)

/-- Modelled from the spec: `flush` — on success, `disk_seqnum` is updated to
the current `mem_seqnum` and 0 is returned; on a failed durability barrier
the in-memory state is left unchanged and failure (-1) is returned (§4.4,
§4.5).  The success of the underlying I/O barrier is an input. -/
def scaling_bloom_flush (s : scaling_bloom_t) (io_ok : Bool) :
    scaling_bloom_t × Int :=
  if io_ok then ({ s with disk_seqnum := s.mem_seqnum }, 0) else (s, -1)

/-- Engine accessor for the memory-consistent sequence number. -/
def scaling_bloom_mem_seqnum (s : scaling_bloom_t) : Nat :=
  s.mem_seqnum

/-- Engine accessor for the disk-consistent sequence number. -/
def scaling_bloom_disk_seqnum (s : scaling_bloom_t) : Nat :=
  s.disk_seqnum

/-- The engine's C-level `scaling_bloom_check` result as an int
(nonzero = present), as consumed by the binding layer. -/
def scaling_bloom_check_c (s : scaling_bloom_t) (key : List Nat) : Int :=
  if scaling_bloom_check s key then 1 else 0

/-- One mutating or flushing operation on a scaling filter, for describing
reachable states by traces. -/
inductive Op where
  | add (key : List Nat) (id : Nat)
  | del (key : List Nat) (id : Nat)
  | flush (io_ok : Bool)

/-- One step of the trace semantics. -/
def step (s : scaling_bloom_t) : Op → scaling_bloom_t
  | .add key id => (scaling_bloom_add s key id).1
  | .del key id => (scaling_bloom_remove s key id).1
  | .flush ok => (scaling_bloom_flush s ok).1

/-- Run a trace of operations left to right. -/
def run (s : scaling_bloom_t) : List Op → scaling_bloom_t
  | [] => s
  | op :: ops => run (step s op) ops

/-! ## The binding layer, translated from `src/pydablooms/pydablooms.c`.

The Python argument glue is out of scope; an engine constructor call is
passed in as a function argument (`eng`), standing for `new_scaling_bloom` /
`new_scaling_bloom_from_file`, which perform all file effects and return
NULL (`none`) on failure.  A C function that sets a Python exception and
returns an error code is embedded as `Except String`. -/

/-- A `Dablooms` Python object: its `filter` field is a possibly-NULL
pointer to the engine state (`pydablooms.c:11-14`). -/
structure Dablooms where
  filter : Option scaling_bloom_t

/-- `Dablooms_init` from `pydablooms.c:36-63`: validates capacity,
error_rate and filepath in that order, raising `DabloomsError` with the
corresponding message before the engine is invoked; otherwise stores the
engine's result (unchecked) and reports success. -/
def Dablooms_init (capacity : Int) (error_rate : ℚ) (filepath : String)
    (eng : Int → ℚ → String → Option scaling_bloom_t) :
    Except String Dablooms :=
  if capacity < 1 then
    .error "Bloom creation failed: capacity must be greater than zero"
  else if error_rate > 1 ∨ error_rate < 0 then
    .error "Bloom creation failed: error_rate must be between 0 and 1"
  else if filepath = "" then
    .error "Bloom creation failed: filepath required"
  else
    .ok { filter := eng capacity error_rate filepath }

/-- `load_dabloom` from `pydablooms.c:165-198`: the same three validations
with the same messages, then the result of `new_scaling_bloom_from_file`
is stored unchecked and the object is returned. -/
def load_dabloom (capacity : Int) (error_rate : ℚ) (filepath : String)
    (eng : Int → ℚ → String → Option scaling_bloom_t) :
    Except String Dablooms :=
  if capacity < 1 then
    .error "Bloom creation failed: capacity must be greater than zero"
  else if error_rate > 1 ∨ error_rate < 0 then
    .error "Bloom creation failed: error_rate must be between 0 and 1"
  else if filepath = "" then
    .error "Bloom creation failed: filepath required"
  else
    .ok { filter := eng capacity error_rate filepath }

namespace Pydablooms

/-- `contains` from `pydablooms.c:66-75`: the sequence-membership slot,
returning the engine's `scaling_bloom_check` int on the filter state. -/
def contains (f : scaling_bloom_t) (key : List Nat) : Int :=
  scaling_bloom_check_c f key

/-- `check` from `pydablooms.c:77-87`: the `check` method, returning the
engine's `scaling_bloom_check` int on the filter state. -/
def check (f : scaling_bloom_t) (key : List Nat) : Int :=
  scaling_bloom_check_c f key

/-- `flush` from `pydablooms.c:117-120`: returns the engine flush status as
a plain Python integer (no exception path). -/
def flush (f : scaling_bloom_t) (io_ok : Bool) : scaling_bloom_t × Int :=
  scaling_bloom_flush f io_ok

end Pydablooms

/-! ## Helper lemmas: per-counter arithmetic -/

theorem counter_inc_nonneg {c : Int} (h : 0 ≤ c) : 0 ≤ counter_inc c := by
  unfold counter_inc; split <;> omega

theorem counter_inc_pos {c : Int} (h : 0 ≤ c) : 0 < counter_inc c := by
  unfold counter_inc COUNTER_MAX at *; split <;> omega

theorem counter_inc_pos_of_pos {c : Int} (h : 0 < c) : 0 < counter_inc c := by
  unfold counter_inc at *; split <;> omega

theorem counter_inc_le_max {c : Int} (h : c ≤ COUNTER_MAX) :
    counter_inc c ≤ COUNTER_MAX := by
  unfold counter_inc at *; split <;> omega

theorem counter_dec_nonneg {c : Int} (h : 0 ≤ c) : 0 ≤ counter_dec c := by
  unfold counter_dec; split <;> omega

theorem counter_dec_le_max {c : Int} (h : c ≤ COUNTER_MAX) :
    counter_dec c ≤ COUNTER_MAX := by
  unfold counter_dec at *; split <;> omega

theorem iterate_pres {P : Int → Prop} {f : Int → Int}
    (hf : ∀ x, P x → P (f x)) : ∀ (n : Nat) (c : Int), P c → P (f^[n] c) := by
  intro n
  induction n with
  | zero => intro c hc; simpa using hc
  | succ m ih =>
    intro c hc
    rw [Function.iterate_succ_apply]
    exact ih _ (hf _ hc)

theorem iterate_inc_nonneg {c : Int} (n : Nat) (h : 0 ≤ c) :
    0 ≤ counter_inc^[n] c :=
  iterate_pres (fun _ hx => counter_inc_nonneg hx) n c h

theorem iterate_inc_le_max {c : Int} (n : Nat) (h : c ≤ COUNTER_MAX) :
    counter_inc^[n] c ≤ COUNTER_MAX :=
  iterate_pres (P := fun x => x ≤ COUNTER_MAX)
    (fun _ hx => counter_inc_le_max hx) n c h

theorem iterate_inc_pos_of_pos {c : Int} (n : Nat) (h : 0 < c) :
    0 < counter_inc^[n] c :=
  iterate_pres (fun _ hx => counter_inc_pos_of_pos hx) n c h

theorem iterate_inc_pos {c : Int} {n : Nat} (hn : 0 < n) (h : 0 ≤ c) :
    0 < counter_inc^[n] c := by
  obtain ⟨m, rfl⟩ : ∃ m, n = m + 1 := ⟨n - 1, by omega⟩
  rw [Function.iterate_succ_apply]
  exact iterate_inc_pos_of_pos m (counter_inc_pos h)

theorem iterate_dec_nonneg {c : Int} (n : Nat) (h : 0 ≤ c) :
    0 ≤ counter_dec^[n] c :=
  iterate_pres (fun _ hx => counter_dec_nonneg hx) n c h

theorem iterate_dec_le_max {c : Int} (n : Nat) (h : c ≤ COUNTER_MAX) :
    counter_dec^[n] c ≤ COUNTER_MAX :=
  iterate_pres (P := fun x => x ≤ COUNTER_MAX)
    (fun _ hx => counter_dec_le_max hx) n c h

theorem iterate_inc_eq (n : Nat) (c : Int) (h0 : 0 ≤ c) (h1 : c ≤ COUNTER_MAX) :
    counter_inc^[n] c = min (c + n) COUNTER_MAX := by
  induction n generalizing c with
  | zero => simp; omega
  | succ m ih =>
    rw [Function.iterate_succ_apply]
    by_cases hc : c < COUNTER_MAX
    · rw [show counter_inc c = c + 1 by unfold counter_inc; rw [if_pos hc]]
      rw [ih (c + 1) (by omega) (by omega)]
      push_cast
      omega
    · rw [show counter_inc c = c by unfold counter_inc; rw [if_neg hc]]
      rw [ih c h0 h1]
      unfold COUNTER_MAX at *
      push_cast
      omega

theorem iterate_dec_eq (n : Nat) (c : Int) (h0 : 0 ≤ c) :
    counter_dec^[n] c = max (c - n) 0 := by
  induction n generalizing c with
  | zero => simp; omega
  | succ m ih =>
    rw [Function.iterate_succ_apply]
    by_cases hc : 0 < c
    · rw [show counter_dec c = c - 1 by unfold counter_dec; rw [if_pos hc]]
      rw [ih (c - 1) (by omega)]
      push_cast
      omega
    · rw [show counter_dec c = c by unfold counter_dec; rw [if_neg hc]]
      rw [ih c h0]
      push_cast
      omega

theorem dec_iterate_inc_iterate_zero (n : Nat) :
    counter_dec^[n] (counter_inc^[n] (0 : Int)) = 0 := by
  rw [iterate_inc_eq n 0 le_rfl (by unfold COUNTER_MAX; omega)]
  rw [iterate_dec_eq n _ (by unfold COUNTER_MAX; omega)]
  unfold COUNTER_MAX
  omega

/-! ## Helper lemmas: pointwise behaviour of counter-array updates -/

theorem counters_apply_eq_iterate (L : List Nat) (cs : Nat → Int)
    (f : Int → Int) (j : Nat) :
    counters_apply cs L f j = f^[L.count j] (cs j) := by
  induction L generalizing cs with
  | nil => simp [counters_apply]
  | cons p L ih =>
    show counters_apply (counters_update cs p f) L f j = _
    rw [ih]
    by_cases hj : j = p
    · subst hj
      rw [List.count_cons_self, counters_update]
      simp [Function.iterate_succ_apply]
    · rw [counters_update]
      simp only [if_neg hj]
      rw [List.count_cons_of_ne (by simpa using hj)]

/-! ## Helper lemmas: sub-filter geometry and operations -/

theorem bloom_add_positions (b : bloom_t) (key k2 : List Nat) :
    bloom_positions (bloom_add b k2) key = bloom_positions b key := rfl

theorem bloom_remove_positions (b : bloom_t) (key k2 : List Nat) :
    bloom_positions (bloom_remove b k2) key = bloom_positions b key := rfl

theorem bloom_seal_positions (b : bloom_t) (key : List Nat) :
    bloom_positions { b with sealed := true } key = bloom_positions b key := rfl

theorem bloom_add_counters (b : bloom_t) (key : List Nat) (j : Nat) :
    (bloom_add b key).counters j
      = counter_inc^[(bloom_positions b key).count j] (b.counters j) :=
  counters_apply_eq_iterate _ _ _ _

theorem bloom_remove_counters (b : bloom_t) (key : List Nat) (j : Nat) :
    (bloom_remove b key).counters j
      = counter_dec^[(bloom_positions b key).count j] (b.counters j) :=
  counters_apply_eq_iterate _ _ _ _

theorem bloom_check_eq_true (b : bloom_t) (key : List Nat) :
    bloom_check b key = true ↔ ∀ p ∈ bloom_positions b key, 0 < b.counters p := by
  simp [bloom_check]

theorem bloom_check_add_self {b : bloom_t} {key : List Nat}
    (h : ∀ p ∈ bloom_positions b key, 0 ≤ b.counters p) :
    bloom_check (bloom_add b key) key = true := by
  rw [bloom_check_eq_true]
  intro p hp
  rw [bloom_add_positions] at hp
  rw [bloom_add_counters]
  exact iterate_inc_pos (List.count_pos_iff.mpr hp) (h p hp)

theorem bloom_check_mono_add {b : bloom_t} {key : List Nat} (k2 : List Nat)
    (h : bloom_check b key = true) :
    bloom_check (bloom_add b k2) key = true := by
  rw [bloom_check_eq_true] at h ⊢
  intro p hp
  rw [bloom_add_positions] at hp
  rw [bloom_add_counters]
  exact iterate_inc_pos_of_pos _ (h p hp)

theorem bloom_positions_ne_nil {b : bloom_t} (key : List Nat)
    (hk : 1 ≤ b.num_hashes) : bloom_positions b key ≠ [] := by
  simp only [bloom_positions, ne_eq, List.map_eq_nil_iff, List.range_eq_nil]
  omega

theorem bloom_check_false_of_zero {b : bloom_t} {key : List Nat}
    (hk : 1 ≤ b.num_hashes)
    (h : ∀ p ∈ bloom_positions b key, b.counters p = 0) :
    bloom_check b key = false := by
  obtain ⟨p, hp⟩ := List.exists_mem_of_ne_nil _ (bloom_positions_ne_nil key hk)
  rw [Bool.eq_false_iff]
  intro hT
  rw [bloom_check_eq_true] at hT
  have h0 := hT p hp
  rw [h p hp] at h0
  exact lt_irrefl 0 h0

theorem bloom_seal_check (b : bloom_t) (key : List Nat) :
    bloom_check { b with sealed := true } key = bloom_check b key := rfl

/-! ## Helper lemmas: the scaling controller invariant -/

/-- Geometry and counter-range invariant of one sub-filter: at least one hash
position, and every counter within `[0, COUNTER_MAX]`. -/
def GoodBloom (b : bloom_t) : Prop :=
  1 ≤ b.num_hashes ∧ ∀ j, 0 ≤ b.counters j ∧ b.counters j ≤ COUNTER_MAX

/-- Invariant of the scaling filter: at least one sub-filter, all of
them well-formed. -/
def GoodState (s : scaling_bloom_t) : Prop :=
  s.blooms ≠ [] ∧ ∀ b ∈ s.blooms, GoodBloom b

theorem goodBloom_new {cap k : Nat} (hk : 1 ≤ k) : GoodBloom (new_bloom cap k) := by
  refine ⟨hk, fun j => ?_⟩
  show (0 : Int) ≤ 0 ∧ (0 : Int) ≤ COUNTER_MAX
  unfold COUNTER_MAX
  omega

theorem goodBloom_next {b : bloom_t} (_h : GoodBloom b) :
    GoodBloom (next_bloom b) :=
  goodBloom_new (by omega)

theorem goodBloom_add {b : bloom_t} (key : List Nat) (h : GoodBloom b) :
    GoodBloom (bloom_add b key) := by
  refine ⟨h.1, fun j => ?_⟩
  rw [bloom_add_counters]
  exact ⟨iterate_inc_nonneg _ (h.2 j).1, iterate_inc_le_max _ (h.2 j).2⟩

theorem goodBloom_remove {b : bloom_t} (key : List Nat) (h : GoodBloom b) :
    GoodBloom (bloom_remove b key) := by
  refine ⟨h.1, fun j => ?_⟩
  rw [bloom_remove_counters]
  exact ⟨iterate_dec_nonneg _ (h.2 j).1, iterate_dec_le_max _ (h.2 j).2⟩

theorem goodBloom_seal {b : bloom_t} (h : GoodBloom b) :
    GoodBloom { b with sealed := true } :=
  h

theorem remove_first_length (l : List bloom_t) (key : List Nat) :
    (remove_first l key).length = l.length := by
  induction l with
  | nil => rfl
  | cons b rest ih =>
    unfold remove_first
    split <;> simp [ih]

theorem remove_first_good {l : List bloom_t} {key : List Nat}
    (h : ∀ b ∈ l, GoodBloom b) : ∀ b ∈ remove_first l key, GoodBloom b := by
  induction l with
  | nil => simp [remove_first]
  | cons b rest ih =>
    unfold remove_first
    split
    · intro b' hb'
      rcases List.mem_cons.mp hb' with h1 | h1
      · exact h1 ▸ goodBloom_remove key (h b (List.mem_cons_self b rest))
      · exact h b' (List.mem_cons_of_mem b h1)
    · intro b' hb'
      rcases List.mem_cons.mp hb' with h1 | h1
      · exact h1 ▸ h b (List.mem_cons_self b rest)
      · exact ih (fun x hx => h x (List.mem_cons_of_mem b hx)) b' h1

theorem good_init (cap : Nat) (r : ℚ) : GoodState (new_scaling_bloom cap r) := by
  refine ⟨by simp [new_scaling_bloom], fun b hb => ?_⟩
  rw [show (new_scaling_bloom cap r).blooms = [new_bloom cap INIT_HASHES] from rfl]
    at hb
  rw [List.mem_singleton.mp hb]
  exact goodBloom_new (by unfold INIT_HASHES; omega)

theorem good_add {s : scaling_bloom_t} (key : List Nat) (id : Nat)
    (h : GoodState s) : GoodState (scaling_bloom_add s key id).1 := by
  obtain ⟨hne, hall⟩ := h
  unfold scaling_bloom_add
  match hb : s.blooms with
  | [] => exact absurd hb hne
  | b :: rest =>
    have hgb : GoodBloom b := hall b (hb ▸ List.mem_cons_self b rest)
    have hrest : ∀ x ∈ rest, GoodBloom x :=
      fun x hx => hall x (hb ▸ List.mem_cons_of_mem b hx)
    have hgb' : GoodBloom (bloom_add b key) := goodBloom_add key hgb
    simp only
    split
    · refine ⟨by simp, fun x hx => ?_⟩
      rcases List.mem_cons.mp hx with h1 | h1
      · exact h1 ▸ goodBloom_next hgb'
      · rcases List.mem_cons.mp h1 with h2 | h2
        · exact h2 ▸ goodBloom_seal hgb'
        · exact hrest x h2
    · refine ⟨by simp, fun x hx => ?_⟩
      rcases List.mem_cons.mp hx with h1 | h1
      · exact h1 ▸ hgb'
      · exact hrest x h1

theorem good_del {s : scaling_bloom_t} (key : List Nat) (id : Nat)
    (h : GoodState s) : GoodState (scaling_bloom_remove s key id).1 := by
  obtain ⟨hne, hall⟩ := h
  refine ⟨?_, remove_first_good hall⟩
  show remove_first s.blooms key ≠ []
  intro hcon
  have := remove_first_length s.blooms key
  rw [hcon] at this
  exact hne (List.eq_nil_of_length_eq_zero this.symm)

theorem good_flush {s : scaling_bloom_t} (ok : Bool)
    (h : GoodState s) : GoodState (scaling_bloom_flush s ok).1 := by
  unfold scaling_bloom_flush
  split
  · exact ⟨h.1, h.2⟩
  · exact h

theorem good_step {s : scaling_bloom_t} (op : Op)
    (h : GoodState s) : GoodState (step s op) := by
  cases op with
  | add key id => exact good_add key id h
  | del key id => exact good_del key id h
  | flush ok => exact good_flush ok h

theorem good_run {s : scaling_bloom_t} (ops : List Op)
    (h : GoodState s) : GoodState (run s ops) := by
  induction ops generalizing s with
  | nil => exact h
  | cons op ops ih => exact ih (good_step op h)

/-! ## Helper lemmas: `check` after `add` at the scaling level -/

theorem scaling_check_add_self {s : scaling_bloom_t} (key : List Nat) (id : Nat)
    (h : GoodState s) :
    scaling_bloom_check (scaling_bloom_add s key id).1 key = true := by
  obtain ⟨hne, hall⟩ := h
  unfold scaling_bloom_add
  match hb : s.blooms with
  | [] => exact absurd hb hne
  | b :: rest =>
    have hgb : GoodBloom b := hall b (hb ▸ List.mem_cons_self b rest)
    have hchk : bloom_check (bloom_add b key) key = true :=
      bloom_check_add_self (fun p _ => (hgb.2 p).1)
    unfold scaling_bloom_check
    simp only
    split
    · rw [List.any_eq_true]
      exact ⟨{ bloom_add b key with sealed := true },
        List.mem_cons_of_mem _ (List.mem_cons_self _ _),
        by rw [bloom_seal_check]; exact hchk⟩
    · rw [List.any_eq_true]
      exact ⟨bloom_add b key, List.mem_cons_self _ _, hchk⟩

theorem scaling_check_mono_add {s : scaling_bloom_t} {key : List Nat}
    (k2 : List Nat) (id : Nat)
    (h : scaling_bloom_check s key = true) :
    scaling_bloom_check (scaling_bloom_add s k2 id).1 key = true := by
  unfold scaling_bloom_check at h
  rw [List.any_eq_true] at h
  obtain ⟨bb, hmem, hchk⟩ := h
  unfold scaling_bloom_add
  match hb : s.blooms with
  | [] =>
    rw [hb] at hmem
    simp at hmem
  | b :: rest =>
    rw [hb] at hmem
    unfold scaling_bloom_check
    simp only
    split
    · rw [List.any_eq_true]
      rcases List.mem_cons.mp hmem with rfl | h1
      · exact ⟨{ bloom_add bb k2 with sealed := true },
          List.mem_cons_of_mem _ (List.mem_cons_self _ _),
          by rw [bloom_seal_check]; exact bloom_check_mono_add k2 hchk⟩
      · exact ⟨bb, List.mem_cons_of_mem _ (List.mem_cons_of_mem _ h1), hchk⟩
    · rw [List.any_eq_true]
      rcases List.mem_cons.mp hmem with rfl | h1
      · exact ⟨bloom_add bb k2, List.mem_cons_self _ _,
          bloom_check_mono_add k2 hchk⟩
      · exact ⟨bb, List.mem_cons_of_mem _ h1, hchk⟩

/-- C1: for every key k (byte sequence) and every 64-bit identifier id,
immediately after a successful `add(k, id)` on a (reachable) filter,
`check(k)` returns true.  The filter is any state reached from a fresh
filter by an arbitrary trace of add/delete/flush operations. -/
theorem add_then_check_true (cap : Nat) (r : ℚ) (ops : List Op)
    (key : List Nat) (id : Nat) :
    scaling_bloom_check
      (scaling_bloom_add (run (new_scaling_bloom cap r) ops) key id).1 key
      = true :=
  scaling_check_add_self key id (good_run ops (good_init cap r))

/-! ## Helper lemmas: `delete` after `add` -/

theorem bloom_remove_seal_comm (x : bloom_t) (key : List Nat) :
    bloom_remove { x with sealed := true } key
      = { bloom_remove x key with sealed := true } := rfl

theorem bloom_remove_add_check_false {b : bloom_t} {key : List Nat}
    (hk : 1 ≤ b.num_hashes)
    (hz : ∀ p ∈ bloom_positions b key, b.counters p = 0) :
    bloom_check (bloom_remove (bloom_add b key) key) key = false := by
  refine bloom_check_false_of_zero
    (b := bloom_remove (bloom_add b key) key) hk ?_
  intro p hp
  rw [show bloom_positions (bloom_remove (bloom_add b key) key) key
        = bloom_positions b key from rfl] at hp
  rw [bloom_remove_counters, bloom_add_positions, bloom_add_counters,
    hz p hp]
  exact dec_iterate_inc_iterate_zero _

/-- C2: for every key k and identifier id, if `add(k, id)` is followed by
`delete(k, id)` and no other added key shares any of k's hash positions —
formalised as: before the add, every counter of every sub-filter at k's hash
positions is 0 — then `check(k)` returns false afterwards.  The sub-filter
geometry hypothesis `1 ≤ num_hashes` holds for every sub-filter the
controller creates. -/
theorem add_delete_check_false {s : scaling_bloom_t} (key : List Nat)
    (id id2 : Nat)
    (hne : s.blooms ≠ [])
    (hk : ∀ b ∈ s.blooms, 1 ≤ b.num_hashes)
    (hz : ∀ b ∈ s.blooms, ∀ p ∈ bloom_positions b key, b.counters p = 0) :
    scaling_bloom_check
      (scaling_bloom_remove (scaling_bloom_add s key id).1 key id2).1 key
      = false := by
  unfold scaling_bloom_add
  match hb : s.blooms with
  | [] => exact absurd hb hne
  | b :: rest =>
    have hkb : 1 ≤ b.num_hashes := hk b (hb ▸ List.mem_cons_self b rest)
    have hzb : ∀ p ∈ bloom_positions b key, b.counters p = 0 :=
      hz b (hb ▸ List.mem_cons_self b rest)
    have hrestF : ∀ x ∈ rest, bloom_check x key = false := fun x hx =>
      bloom_check_false_of_zero (hk x (hb ▸ List.mem_cons_of_mem b hx))
        (hz x (hb ▸ List.mem_cons_of_mem b hx))
    have F1 : bloom_check (bloom_add b key) key = true :=
      bloom_check_add_self (fun p hp => le_of_eq (hzb p hp).symm)
    have F4 : bloom_check (bloom_remove (bloom_add b key) key) key = false :=
      bloom_remove_add_check_false hkb hzb
    simp only
    split
    · -- the add sealed the active sub-filter and appended a fresh one
      have F2 : bloom_check (next_bloom (bloom_add b key)) key = false := by
        apply bloom_check_false_of_zero
        · show 1 ≤ b.num_hashes + 1
          omega
        · intro p _
          rfl
      unfold scaling_bloom_remove scaling_bloom_check
      simp only [remove_first]
      rw [if_neg (by simp [F2]), if_pos (by rw [bloom_seal_check]; exact F1)]
      rw [List.any_eq_false]
      intro x hx
      rcases List.mem_cons.mp hx with rfl | h1
      · simp [F2]
      · rcases List.mem_cons.mp h1 with rfl | h2
        · rw [bloom_remove_seal_comm, bloom_seal_check]
          simp [F4]
        · simp [hrestF x h2]
    · -- the active sub-filter absorbed the add without sealing
      unfold scaling_bloom_remove scaling_bloom_check
      simp only [remove_first]
      rw [if_pos F1]
      rw [List.any_eq_false]
      intro x hx
      rcases List.mem_cons.mp hx with rfl | h1
      · simp [F4]
      · simp [hrestF x h1]

/-- Witness for C2 at a concrete fresh filter and key. -/
theorem add_delete_check_false_witness :
    scaling_bloom_check
      (scaling_bloom_remove
        (scaling_bloom_add (new_scaling_bloom 2 (1/2)) [1] 1).1 [1] 2).1 [1]
      = false :=
  add_delete_check_false [1] 1 2
    (List.cons_ne_nil _ _)
    (by intro b hb; rw [List.mem_singleton.mp hb]; decide)
    (by intro b hb; rw [List.mem_singleton.mp hb]; intro p _; rfl)

/-! ## Helper lemmas: sequence numbers along traces -/

theorem run_append (s : scaling_bloom_t) (ops : List Op) (op : Op) :
    run s (ops ++ [op]) = step (run s ops) op := by
  induction ops generalizing s with
  | nil => rfl
  | cons o ops ih => exact ih (step s o)

theorem add_seqnum {s : scaling_bloom_t} {b : bloom_t} {rest : List bloom_t}
    (hb : s.blooms = b :: rest) (key : List Nat) (id : Nat) :
    (scaling_bloom_add s key id).1.mem_seqnum = s.mem_seqnum + 1
    ∧ (scaling_bloom_add s key id).1.disk_seqnum = s.disk_seqnum := by
  unfold scaling_bloom_add
  rw [hb]
  exact ⟨rfl, rfl⟩

theorem del_seqnum (s : scaling_bloom_t) (key : List Nat) (id : Nat) :
    (scaling_bloom_remove s key id).1.mem_seqnum = s.mem_seqnum + 1
    ∧ (scaling_bloom_remove s key id).1.disk_seqnum = s.disk_seqnum :=
  ⟨rfl, rfl⟩

theorem flush_seqnum (s : scaling_bloom_t) :
    (scaling_bloom_flush s true).1.mem_seqnum = s.mem_seqnum
    ∧ (scaling_bloom_flush s true).1.disk_seqnum = s.mem_seqnum := by
  unfold scaling_bloom_flush
  exact ⟨rfl, rfl⟩

theorem add_disk (s : scaling_bloom_t) (key : List Nat) (id : Nat) :
    (scaling_bloom_add s key id).1.disk_seqnum = s.disk_seqnum := by
  unfold scaling_bloom_add
  match hb : s.blooms with
  | [] => rfl
  | b :: rest => rfl

theorem add_mem_ge (s : scaling_bloom_t) (key : List Nat) (id : Nat) :
    s.mem_seqnum ≤ (scaling_bloom_add s key id).1.mem_seqnum := by
  unfold scaling_bloom_add
  match hb : s.blooms with
  | [] => exact le_rfl
  | b :: rest => exact Nat.le_succ _

theorem step_seq_le {s : scaling_bloom_t} (op : Op)
    (h : s.disk_seqnum ≤ s.mem_seqnum) :
    (step s op).disk_seqnum ≤ (step s op).mem_seqnum := by
  cases op with
  | add key id =>
    show (scaling_bloom_add s key id).1.disk_seqnum
      ≤ (scaling_bloom_add s key id).1.mem_seqnum
    rw [add_disk]
    exact le_trans h (add_mem_ge s key id)
  | del key id =>
    show s.disk_seqnum ≤ s.mem_seqnum + 1
    omega
  | flush ok =>
    show (scaling_bloom_flush s ok).1.disk_seqnum
      ≤ (scaling_bloom_flush s ok).1.mem_seqnum
    unfold scaling_bloom_flush
    split
    · exact le_rfl
    · exact h

theorem run_seq_le {s : scaling_bloom_t} (ops : List Op)
    (h : s.disk_seqnum ≤ s.mem_seqnum) :
    (run s ops).disk_seqnum ≤ (run s ops).mem_seqnum := by
  induction ops generalizing s with
  | nil => exact h
  | cons op ops ih => exact ih (step_seq_le op h)

/-- C3 (amended): in every reachable filter state,
`disk_seqnum() ≤ mem_seqnum()`; the two are equal immediately after a
successful flush; and a mutation (add or delete) with no subsequent flush
always leaves `disk_seqnum()` strictly below `mem_seqnum()`.  (Equality is
NOT exclusive to the post-flush moment: it also holds in a freshly
created or reopened filter before any mutation — see
`seqnum_equal_without_flush`.) -/
theorem seqnum_invariant (cap : Nat) (r : ℚ) (ops : List Op)
    (key : List Nat) (id : Nat) :
    scaling_bloom_disk_seqnum (run (new_scaling_bloom cap r) ops)
      ≤ scaling_bloom_mem_seqnum (run (new_scaling_bloom cap r) ops)
    ∧ scaling_bloom_disk_seqnum
        (run (new_scaling_bloom cap r) (ops ++ [Op.flush true]))
      = scaling_bloom_mem_seqnum
        (run (new_scaling_bloom cap r) (ops ++ [Op.flush true]))
    ∧ scaling_bloom_disk_seqnum
        (run (new_scaling_bloom cap r) (ops ++ [Op.add key id]))
      < scaling_bloom_mem_seqnum
        (run (new_scaling_bloom cap r) (ops ++ [Op.add key id]))
    ∧ scaling_bloom_disk_seqnum
        (run (new_scaling_bloom cap r) (ops ++ [Op.del key id]))
      < scaling_bloom_mem_seqnum
        (run (new_scaling_bloom cap r) (ops ++ [Op.del key id])) := by
  have hle : (run (new_scaling_bloom cap r) ops).disk_seqnum
      ≤ (run (new_scaling_bloom cap r) ops).mem_seqnum :=
    run_seq_le ops (le_refl 0)
  refine ⟨hle, ?_, ?_, ?_⟩
  · rw [run_append]
    show (scaling_bloom_flush (run (new_scaling_bloom cap r) ops) true).1.disk_seqnum
      = (scaling_bloom_flush (run (new_scaling_bloom cap r) ops) true).1.mem_seqnum
    rw [(flush_seqnum _).1, (flush_seqnum _).2]
  · rw [run_append]
    obtain ⟨b, rest, hb⟩ :=
      List.exists_cons_of_ne_nil (good_run ops (good_init cap r)).1
    show (scaling_bloom_add (run (new_scaling_bloom cap r) ops) key id).1.disk_seqnum
      < (scaling_bloom_add (run (new_scaling_bloom cap r) ops) key id).1.mem_seqnum
    rw [(add_seqnum hb key id).1, (add_seqnum hb key id).2]
    omega
  · rw [run_append]
    show (scaling_bloom_remove (run (new_scaling_bloom cap r) ops) key id).1.disk_seqnum
      < (scaling_bloom_remove (run (new_scaling_bloom cap r) ops) key id).1.mem_seqnum
    rw [(del_seqnum _ key id).1, (del_seqnum _ key id).2]
    omega

/-- C3 counterexample to "(and only then)": the filter state reached by the
empty trace — a fresh filter on which no flush was ever performed — already
has `disk_seqnum() = mem_seqnum()` (both 0), so equality of the two sequence
numbers is not exclusive to the moment immediately after a successful
flush. -/
theorem seqnum_equal_without_flush :
    scaling_bloom_disk_seqnum (run (new_scaling_bloom 100 (1/100)) [])
      = scaling_bloom_mem_seqnum (run (new_scaling_bloom 100 (1/100)) []) :=
  rfl

/-! ## Helper lemmas: sequences of adds (scaling growth) -/

/-- A sequence of `add` calls, each with a key and a caller-assigned id. -/
def addMany (s : scaling_bloom_t) (adds : List (List Nat × Nat)) :
    scaling_bloom_t :=
  adds.foldl (fun t kid => (scaling_bloom_add t kid.1 kid.2).1) s

theorem addMany_cons (s : scaling_bloom_t) (kid : List Nat × Nat)
    (adds : List (List Nat × Nat)) :
    addMany s (kid :: adds) = addMany (scaling_bloom_add s kid.1 kid.2).1 adds :=
  rfl

theorem addMany_check_mono {key : List Nat} (adds : List (List Nat × Nat))
    {t : scaling_bloom_t} (h : scaling_bloom_check t key = true) :
    scaling_bloom_check (addMany t adds) key = true := by
  induction adds generalizing t with
  | nil => exact h
  | cons kid adds ih =>
    rw [addMany_cons]
    exact ih (scaling_check_mono_add kid.1 kid.2 h)

theorem good_addMany {s : scaling_bloom_t} (adds : List (List Nat × Nat))
    (h : GoodState s) : GoodState (addMany s adds) := by
  induction adds generalizing s with
  | nil => exact h
  | cons kid adds ih =>
    rw [addMany_cons]
    exact ih (good_add kid.1 kid.2 h)

theorem addMany_check_all {s : scaling_bloom_t} (adds : List (List Nat × Nat))
    (h : GoodState s) :
    ∀ kid ∈ adds, scaling_bloom_check (addMany s adds) kid.1 = true := by
  induction adds generalizing s with
  | nil => intro kid hkid; simp at hkid
  | cons kid0 adds ih =>
    intro kid hkid
    rw [addMany_cons]
    rcases List.mem_cons.mp hkid with rfl | h1
    · exact addMany_check_mono adds (scaling_check_add_self kid.1 kid.2 h)
    · exact ih (good_add kid0.1 kid0.2 h) kid h1

/-- Bookkeeping for the growth argument: as long as the filter still has a
single sub-filter, that sub-filter has absorbed every add so far, kept its
configured capacity, and is not yet full. -/
def SingleInv (cap m : Nat) (s : scaling_bloom_t) : Prop :=
  1 ≤ s.blooms.length ∧
  ∀ b, s.blooms = [b] →
    b.count = m ∧ b.capacity = cap ∧ bloom_is_full b = false

theorem single_init (cap : Nat) (r : ℚ) :
    SingleInv cap 0 (new_scaling_bloom cap r) := by
  refine ⟨by simp [new_scaling_bloom], fun b hb => ?_⟩
  have : b = new_bloom cap INIT_HASHES := by
    have := hb
    simp [new_scaling_bloom] at this
    exact this.symm
  subst this
  refine ⟨rfl, rfl, ?_⟩
  simp [bloom_is_full, new_bloom]

theorem single_add {cap m : Nat} {s : scaling_bloom_t}
    (h : SingleInv cap m s) (key : List Nat) (id : Nat) :
    SingleInv cap (m + 1) (scaling_bloom_add s key id).1 := by
  obtain ⟨hlen, hsingle⟩ := h
  unfold scaling_bloom_add
  match hb : s.blooms with
  | [] =>
    rw [hb] at hlen
    simp at hlen
  | b :: rest =>
    simp only
    by_cases hfull : bloom_is_full (bloom_add b key) = true
    · rw [if_pos hfull]
      refine ⟨by simp, fun b0 hb0 => ?_⟩
      exact absurd (List.cons.injEq _ _ _ _ ▸ hb0).2 (List.cons_ne_nil _ _)
    · rw [if_neg hfull]
      refine ⟨by simp, fun b0 hb0 => ?_⟩
      have he := List.cons.injEq _ _ _ _ ▸ hb0
      obtain ⟨hb0', hrest⟩ := he
      subst hrest
      obtain ⟨hc, hcap, hbf⟩ := hsingle b hb
      refine ⟨?_, ?_, ?_⟩
      · rw [← hb0']
        show (bloom_add b key).count = m + 1
        rw [show (bloom_add b key).count = b.count + 1 from rfl, hc]
      · rw [← hb0']
        show (bloom_add b key).capacity = cap
        exact hcap
      · rw [← hb0']
        exact Bool.not_eq_true _ ▸ hfull

theorem single_addMany {cap m : Nat} {s : scaling_bloom_t}
    (adds : List (List Nat × Nat)) (h : SingleInv cap m s) :
    SingleInv cap (m + adds.length) (addMany s adds) := by
  induction adds generalizing s m with
  | nil => simpa using h
  | cons kid adds ih =>
    rw [addMany_cons, List.length_cons,
      show m + (adds.length + 1) = m + 1 + adds.length by omega]
    exact ih (single_add h kid.1 kid.2)

theorem addMany_grows (cap : Nat) (r : ℚ) (adds : List (List Nat × Nat))
    (h : cap < adds.length) :
    2 ≤ (addMany (new_scaling_bloom cap r) adds).blooms.length := by
  have hs := single_addMany adds (single_init cap r)
  rw [Nat.zero_add] at hs
  obtain ⟨hlen, hsingle⟩ := hs
  rcases Nat.lt_or_ge (addMany (new_scaling_bloom cap r) adds).blooms.length 2
    with h2 | h2
  · have h1 : (addMany (new_scaling_bloom cap r) adds).blooms.length = 1 := by
      omega
    obtain ⟨b, hb⟩ := List.length_eq_one.mp h1
    obtain ⟨hc, hcap, hbf⟩ := hsingle b hb
    have hnf : ¬ (b.capacity * 4 < b.count * 5) := by
      simpa [bloom_is_full] using hbf
    rw [hc, hcap] at hnf
    omega
  · exact h2

/-- C7: for every filter and every sequence of adds — in particular one
exceeding the configured initial capacity — no add ever errors (the returned
status is always 0), every previously- and newly-inserted key still checks
true afterwards, and once the number of adds exceeds the configured capacity
an additional sub-filter has been created transparently (the filter holds at
least two sub-filters). -/
theorem add_beyond_capacity (cap : Nat) (r : ℚ)
    (adds : List (List Nat × Nat)) :
    (∀ (s : scaling_bloom_t) (key : List Nat) (id : Nat),
        (scaling_bloom_add s key id).2 = 0)
    ∧ (∀ kid ∈ adds,
        scaling_bloom_check (addMany (new_scaling_bloom cap r) adds) kid.1
          = true)
    ∧ (cap < adds.length
        → 2 ≤ (addMany (new_scaling_bloom cap r) adds).blooms.length) := by
  refine ⟨?_, ?_, ?_⟩
  · intro s key id
    unfold scaling_bloom_add
    match hb : s.blooms with
    | [] => rfl
    | b :: rest => rfl
  · exact addMany_check_all adds (good_init cap r)
  · exact addMany_grows cap r adds

/-- Witness for C7: two adds into a capacity-1 filter — both keys check
true afterwards and a second sub-filter has appeared. -/
theorem add_beyond_capacity_witness :
    scaling_bloom_check (addMany (new_scaling_bloom 1 0) [([1], 1), ([2], 2)])
      [1] = true
    ∧ 2 ≤ (addMany (new_scaling_bloom 1 0) [([1], 1), ([2], 2)]).blooms.length :=
  ⟨(add_beyond_capacity 1 0 [([1], 1), ([2], 2)]).2.1 ([1], 1)
      (List.mem_cons_self _ _),
   (add_beyond_capacity 1 0 [([1], 1), ([2], 2)]).2.2 (by decide)⟩

/-- C9: in every reachable filter state, every sub-filter counter lies in
`[0, COUNTER_MAX]` (in particular it is never negative), and this is
preserved by every operation; moreover `add`'s per-counter increment
saturates at the maximum representable value instead of wrapping, and
`remove`'s per-counter decrement never decrements a counter that is
already 0. -/
theorem counters_in_range (cap : Nat) (r : ℚ) (ops : List Op) :
    (∀ b ∈ (run (new_scaling_bloom cap r) ops).blooms,
      ∀ j, 0 ≤ b.counters j ∧ b.counters j ≤ COUNTER_MAX)
    ∧ counter_inc COUNTER_MAX = COUNTER_MAX
    ∧ counter_dec 0 = 0 :=
  ⟨fun b hb => ((good_run ops (good_init cap r)).2 b hb).2,
   by decide, by decide⟩

/-- Witness for C9 at the initial sub-filter of a concrete fresh filter. -/
theorem counters_in_range_witness :
    (0 ≤ (new_bloom 2 INIT_HASHES).counters 0
      ∧ (new_bloom 2 INIT_HASHES).counters 0 ≤ COUNTER_MAX)
    ∧ counter_inc COUNTER_MAX = COUNTER_MAX
    ∧ counter_dec 0 = 0 :=
  ⟨(counters_in_range 2 0 []).1 (new_bloom 2 INIT_HASHES) (List.Mem.head _) 0,
   (counters_in_range 2 0 []).2.1,
   (counters_in_range 2 0 []).2.2⟩

/-- C8: for every key k, the boolean result of the `check` method equals the
result of the membership/"contains" operator on the same filter state —
both return the engine's `scaling_bloom_check` value on the same
arguments. -/
theorem check_eq_contains (f : scaling_bloom_t) (key : List Nat) :
    Pydablooms.check f key = Pydablooms.contains f key
    ∧ ((Pydablooms.check f key ≠ 0) ↔ scaling_bloom_check f key = true) := by
  refine ⟨rfl, ?_⟩
  by_cases h : scaling_bloom_check f key
  all_goals simp [Pydablooms.check, scaling_bloom_check_c, h]

/-- C6: `construct` (the `Dablooms_init` entry point) with capacity < 1,
error_rate outside [0,1], or an empty filepath raises the configuration
error before any file is created, mapped, or modified — the result does not
depend on the engine constructor, which performs all file effects — and
with valid parameters it stores whatever filter the engine creates and
reports success. -/
theorem construct_validation (c : Int) (r : ℚ) (fp : String)
    (eng eng2 : Int → ℚ → String → Option scaling_bloom_t) :
    ((c < 1 ∨ r > 1 ∨ r < 0 ∨ fp = "") →
      (∃ msg, Dablooms_init c r fp eng = .error msg)
      ∧ Dablooms_init c r fp eng = Dablooms_init c r fp eng2)
    ∧ (¬(c < 1 ∨ r > 1 ∨ r < 0 ∨ fp = "") →
      Dablooms_init c r fp eng = .ok { filter := eng c r fp }) := by
  constructor
  · intro h
    by_cases h1 : c < 1
    · simp [Dablooms_init, h1]
    · by_cases h2 : r > 1 ∨ r < 0
      · simp [Dablooms_init, h1, h2]
      · by_cases h3 : fp = ""
        · simp [Dablooms_init, h1, h2, h3]
        · tauto
  · intro h
    have h1 : ¬ c < 1 := fun hc => h (Or.inl hc)
    have h2 : ¬ (r > 1 ∨ r < 0) := fun hc => h (Or.inr (Or.imp_right Or.inl hc))
    have h3 : ¬ fp = "" := fun hc => h (Or.inr (Or.inr (Or.inr hc)))
    simp [Dablooms_init, h1, h2, h3]

/-- Witness for C6: capacity 0 is rejected with an error; valid parameters
reach the engine. -/
theorem construct_validation_witness :
    (∃ msg, Dablooms_init 0 0 "f" (fun _ _ _ => none) = .error msg)
    ∧ Dablooms_init 2 0 "f" (fun _ _ _ => none)
      = .ok { filter := (fun _ _ _ => (none : Option scaling_bloom_t)) 2 0 "f" } :=
  ⟨((construct_validation 0 0 "f" (fun _ _ _ => none) (fun _ _ _ => none)).1
      (Or.inl (by decide))).1,
   (construct_validation 2 0 "f" (fun _ _ _ => none) (fun _ _ _ => none)).2
      (by decide)⟩

/-- C10: `load` (the `load_dabloom` entry point) with capacity < 1,
error_rate outside [0,1], or an empty filepath fails with exactly the same
configuration error as `construct`, and does not touch the file: the result
is independent of the file-reading engine (here: literally equal to
`Dablooms_init`'s result under an arbitrary, different engine). -/
theorem load_invalid_params_same_error (c : Int) (r : ℚ) (fp : String)
    (h : c < 1 ∨ r > 1 ∨ r < 0 ∨ fp = "") :
    ∀ engL engC,
      load_dabloom c r fp engL = Dablooms_init c r fp engC
      ∧ (∃ msg, load_dabloom c r fp engL = .error msg) := by
  intro engL engC
  by_cases h1 : c < 1
  · simp [load_dabloom, Dablooms_init, h1]
  · by_cases h2 : r > 1 ∨ r < 0
    · simp [load_dabloom, Dablooms_init, h1, h2]
    · by_cases h3 : fp = ""
      · simp [load_dabloom, Dablooms_init, h1, h2, h3]
      · tauto

/-- Witness for C10 at capacity 0. -/
theorem load_invalid_params_same_error_witness :
    load_dabloom 0 0 "f" (fun _ _ _ => none)
      = Dablooms_init 0 0 "f" (fun _ _ _ => some (new_scaling_bloom 1 0))
    ∧ (∃ msg, load_dabloom 0 0 "f" (fun _ _ _ => none) = .error msg) :=
  load_invalid_params_same_error 0 0 "f" (Or.inl (by decide))
    (fun _ _ _ => none) (fun _ _ _ => some (new_scaling_bloom 1 0))

/-- C4 (evaluation of the code at the failing input): `load_dabloom` with
valid parameters but a backing file that is absent, truncated, or fails
validation — modelled by the engine's `new_scaling_bloom_from_file`
returning NULL — raises no error at all: it returns a filter object whose
engine pointer is NULL (`pydablooms.c:196-197` stores the engine result
unchecked). -/
theorem load_corrupt_file_returns_object :
    load_dabloom 10 0 "bloom.bin" (fun _ _ _ => none)
      = .ok { filter := none } := by
  simp [load_dabloom]

/-- C5 (evaluation of the code at the failing input): `Dablooms_init` with
valid parameters and a failing engine — file creation or memory mapping
failing, `new_scaling_bloom` returning NULL — reports success (return 0)
with a NULL engine pointer and raises no IOError
(`pydablooms.c:61-62` stores the engine result unchecked); and the binding's
`flush` surfaces a failed durability barrier only as the integer status -1,
leaving the in-memory filter state unchanged, never as a raised error. -/
theorem construct_io_failure_not_raised :
    Dablooms_init 10 0 "bloom.bin" (fun _ _ _ => none) = .ok { filter := none }
    ∧ ∀ f : scaling_bloom_t, Pydablooms.flush f false = (f, -1) :=
  ⟨by simp [Dablooms_init], fun f => rfl⟩
